import Mathlib

/-!
Verification of the retrieval-pipeline components of the rag-showroom
repository: semantic chunker, similarity scorers, metadata filter,
reranker, two-stage retrieval and query decomposition with result fusion.

Text is modelled as `List Char` (the character data of a Python `str`);
the helpers below model the Python string operations used by the code
(`str.split`, `str.replace`, `str.count`, `in`, `str.strip`,
`str.endswith`, `str.lower`, `' '.join`). Floats are modelled as exact
rationals, except for cosine similarity whose square root lives in `ℝ`.
-/

/-- Text is the character sequence of a Python string. -/
abbrev Text := List Char

/-- Model of Python `str.lower()` (character-wise lowercasing). -/
def lowerText (s : Text) : Text := s.map Char.toLower

/-- Accumulator loop for `pyWords`; `cur` holds the current word reversed. -/
def pyWordsGo (cur : Text) : Text → List Text
  | [] => if cur = [] then [] else [cur.reverse]
  | c :: rest =>
    if c.isWhitespace then
      if cur = [] then pyWordsGo [] rest else cur.reverse :: pyWordsGo [] rest
    else pyWordsGo (c :: cur) rest

/-- Model of Python `str.split()` with no argument: split on whitespace
runs, dropping empty fragments. -/
def pyWords (s : Text) : List Text := pyWordsGo [] s

/-- Model of Python `str.split(sep)` for a single-character separator. -/
def splitOnChar (sep : Char) : Text → List Text
  | [] => [[]]
  | c :: rest =>
    if c = sep then [] :: splitOnChar sep rest
    else
      match splitOnChar sep rest with
      | [] => [[c]]
      | g :: t => (c :: g) :: t

/-- Scanning loop for `pySplit`: `skip` counts separator characters still
to be consumed after a match (Python scans left to right, without
overlaps). -/
def pySplitGo (sep : Text) : Nat → Text → List Text
  | _, [] => [[]]
  | skip + 1, _ :: rest => pySplitGo sep skip rest
  | 0, c :: rest =>
    if sep.isPrefixOf (c :: rest) ∧ sep ≠ [] then
      [] :: pySplitGo sep (sep.length - 1) rest
    else
      match pySplitGo sep 0 rest with
      | [] => [[c]]
      | g :: t => (c :: g) :: t

/-- Model of Python `str.split(sep)` for a non-empty multi-character
separator such as `" and "`. -/
def pySplit (sep : Text) (s : Text) : List Text := pySplitGo sep 0 s

/-- Scanning loop for `pyReplace` (same skip discipline as `pySplitGo`). -/
def pyReplaceGo (old new : Text) : Nat → Text → Text
  | _, [] => []
  | skip + 1, _ :: rest => pyReplaceGo old new skip rest
  | 0, c :: rest =>
    if old.isPrefixOf (c :: rest) ∧ old ≠ [] then
      new ++ pyReplaceGo old new (old.length - 1) rest
    else c :: pyReplaceGo old new 0 rest

/-- Model of Python `str.replace(old, new)` for non-empty `old`:
left-to-right, non-overlapping replacement of every occurrence. -/
def pyReplace (old new : Text) (s : Text) : Text := pyReplaceGo old new 0 s

/-- Scanning loop for `countOcc`. -/
def countOccGo (pat : Text) : Nat → Text → Nat
  | _, [] => 0
  | skip + 1, _ :: rest => countOccGo pat skip rest
  | 0, c :: rest =>
    if pat.isPrefixOf (c :: rest) ∧ pat ≠ [] then
      1 + countOccGo pat (pat.length - 1) rest
    else countOccGo pat 0 rest

/-- Model of Python `str.count(pat)` for non-empty `pat`: number of
non-overlapping occurrences, scanning left to right. -/
def countOcc (pat : Text) (s : Text) : Nat := countOccGo pat 0 s

/-- Model of Python's substring test `pat in s`. -/
def pyIn (pat : Text) : Text → Bool
  | [] => pat.isPrefixOf []
  | c :: rest => pat.isPrefixOf (c :: rest) || pyIn pat rest

/-- Model of Python `str.strip()`: drop leading and trailing whitespace. -/
def pyStrip (s : Text) : Text :=
  ((s.dropWhile Char.isWhitespace).reverse.dropWhile Char.isWhitespace).reverse

/-- A semantic chunk of text, as produced by the chunkers. It carries the
fields of `Chunk` from `patterns/01-semantic-chunking/example.py`
(`id`, `text`, `sentence_count`, `char_count`, `similarity_score`)
together with the `sentences` field that the variant in
`demos/semantic-chunking/demo.py` stores (the `current_sentences` list of
the loop); the demo's derived `topic` field is not used by any claim and
is omitted. -/
structure Chunk where
  id : Nat
  text : Text
  sentences : List Text
  sentence_count : Nat
  char_count : Nat
  similarity_score : ℚ
deriving DecidableEq

namespace SemanticChunker

/-- Jaccard similarity of the lowercase word sets of two sentences, from
`SemanticChunker._calculate_similarity`: `0.0` when either word set is
empty, else `|A ∩ B| / |A ∪ B|`. -/
def calculate_similarity (sent1 sent2 : Text) : ℚ :=
  let words1 := (pyWords (lowerText sent1)).toFinset
  let words2 := (pyWords (lowerText sent2)).toFinset
  if words1 = ∅ ∨ words2 = ∅ then 0
  else (words1 ∩ words2).card / ((words1 ∪ words2).card : ℚ)

/-- Build the chunk record appended by `chunk_document`: the text is the
space-join of the accumulated sentences and `char_count` its length. -/
def mkChunk (chunk_id : Nat) (current_sentences : List Text) (sim : ℚ) : Chunk :=
  let chunk_text := List.intercalate [' '] current_sentences
  { id := chunk_id, text := chunk_text, sentences := current_sentences,
    sentence_count := current_sentences.length,
    char_count := chunk_text.length, similarity_score := sim }

/-- The main loop of `chunk_document` (lines 50-78 of
`patterns/01-semantic-chunking/example.py`, identical in the demo
variant): compare each next sentence with the last sentence of the
current chunk; extend on `similarity ≥ threshold`, otherwise close the
current chunk and seed a new one; the final chunk is closed with
similarity score `1.0`. -/
def chunkLoop (similarity_threshold : ℚ) (current_sentences : List Text)
    (chunk_id : Nat) : List Text → List Chunk
  | [] => [mkChunk chunk_id current_sentences 1]
  | s :: rest =>
    let sim := calculate_similarity (current_sentences.getLastD []) s
    if sim ≥ similarity_threshold then
      chunkLoop similarity_threshold (current_sentences ++ [s]) chunk_id rest
    else
      mkChunk chunk_id current_sentences sim ::
        chunkLoop similarity_threshold [s] (chunk_id + 1) rest

/-- Chunking of an already-split sentence list: empty list gives no
chunks (the `if not sentences: return []` guard), otherwise the first
sentence seeds the current chunk and the loop runs on the rest. -/
def chunkSentences (similarity_threshold : ℚ) : List Text → List Chunk
  | [] => []
  | s :: rest => chunkLoop similarity_threshold [s] 0 rest

/-- Sentence splitting from `SemanticChunker._split_sentences` of
`patterns/01-semantic-chunking/example.py`: collapse whitespace runs
(`' '.join(text.split())`), mark boundaries after `"! "`, `"? "`, `". "`,
split on the marker, strip, and drop empty fragments. -/
def split_sentences (text : Text) : List Text :=
  let collapsed := List.intercalate [' '] (pyWords text)
  let marked := pyReplace ['.', ' '] ['.', '|']
      (pyReplace ['?', ' '] ['?', '|'] (pyReplace ['!', ' '] ['!', '|'] collapsed))
  ((splitOnChar '|' marked).map pyStrip).filter (· ≠ [])

/-- The full `SemanticChunker.chunk_document` of
`patterns/01-semantic-chunking/example.py`. -/
def chunk_document (similarity_threshold : ℚ) (text : Text) : List Chunk :=
  chunkSentences similarity_threshold (split_sentences text)

end SemanticChunker

namespace DemoChunker

/-- Sentence splitting from `SemanticChunker._split_sentences` of
`demos/semantic-chunking/demo.py`: same as the pattern variant but with
no whitespace collapsing before the boundary markers. -/
def split_sentences (text : Text) : List Text :=
  let marked := pyReplace ['.', ' '] ['.', '|']
      (pyReplace ['?', ' '] ['?', '|'] (pyReplace ['!', ' '] ['!', '|'] text))
  ((splitOnChar '|' marked).map pyStrip).filter (· ≠ [])

/-- Model of `SemanticChunker.chunk_document` of
`demos/semantic-chunking/demo.py`. This variant has no guard for an
empty sentence list: it immediately evaluates `sentences[0]`, which
raises `IndexError` when the list is empty; that failure is modelled as
`none`. The loop body is the same as in the pattern variant. -/
def chunk_document (similarity_threshold : ℚ) (text : Text) :
    Option (List Chunk) :=
  match split_sentences text with
  | [] => none
  | s :: rest => some (SemanticChunker.chunkLoop similarity_threshold [s] 0 rest)

end DemoChunker

/-- Specification-side chunking (claim C10's simple function), on a first
sentence `s` followed by `rest`: each next sentence joins the current
group exactly when its similarity with the immediately preceding input
sentence is at least the threshold, so the list is split exactly at the
adjacent pairs whose similarity is below the threshold. -/
def splitAdjFrom (similarity_threshold : ℚ) (s : Text) : List Text → List (List Text)
  | [] => [[s]]
  | s2 :: rest =>
    if SemanticChunker.calculate_similarity s s2 ≥ similarity_threshold then
      match splitAdjFrom similarity_threshold s2 rest with
      | [] => [[s]]
      | g :: gs => (s :: g) :: gs
    else [s] :: splitAdjFrom similarity_threshold s2 rest

/-- Specification-side chunking of a whole sentence list: split exactly
at the indices `i` with `similarity (sentences[i-1]) (sentences[i])`
below the threshold, comparing only adjacent sentence pairs. -/
def splitAtBoundaries (similarity_threshold : ℚ) : List Text → List (List Text)
  | [] => []
  | s :: rest => splitAdjFrom similarity_threshold s rest

/-- Helper used to state the chunker loop invariant: prepend `pre` to the
first group of a group list (`[pre]` when there is no group). -/
def consOnto (pre : List Text) : List (List Text) → List (List Text)
  | [] => [pre]
  | g :: gs => (pre ++ g) :: gs

/-- A document of the retrieval knowledge bases (`Document` dataclass of
the reranking and query-decomposition patterns): an identifier and its
content text. Titles and metadata play no role in the claims below. -/
structure Doc where
  id : Nat
  content : Text
deriving DecidableEq

namespace SimpleEmbedding

/-- Keyword vocabulary of `SimpleEmbedding` in
`patterns/04-metadata-filtering/example.py`. -/
def keywords : List Text :=
  ["api".toList, "sdk".toList, "tutorial".toList, "guide".toList,
   "reference".toList, "python".toList, "javascript".toList,
   "authentication".toList, "database".toList]

/-- Model of `SimpleEmbedding.embed`: for each keyword, count its
occurrences in the lowercased text and clamp `count / 2.0` to at most
`1.0`. Floats are modelled exactly as rationals. -/
def embed (text : Text) : List ℚ :=
  keywords.map fun keyword =>
    min ((countOcc keyword (lowerText text) : ℚ) / 2) 1

/-- Dot product of two float lists, `sum(a * b for a, b in zip(e1, e2))`
(`zip` truncates to the shorter list). -/
def dotList : List ℝ → List ℝ → ℝ
  | a :: as, b :: bs => a * b + dotList as bs
  | _, _ => 0

/-- Sum of squares `sum(a * a for a in emb)`, whose square root is the
vector norm computed by `similarity`. -/
def sumSq : List ℝ → ℝ
  | [] => 0
  | a :: as => a * a + sumSq as

open Classical in
/-- Model of `SimpleEmbedding.similarity`: cosine similarity with the
zero-norm guard, `0.0` when either norm is zero, else
`dot / (norm1 * norm2)`. -/
noncomputable def similarity (emb1 emb2 : List ℝ) : ℝ :=
  let dot_product := dotList emb1 emb2
  let norm1 := Real.sqrt (sumSq emb1)
  let norm2 := Real.sqrt (sumSq emb2)
  if norm1 = 0 ∨ norm2 = 0 then 0 else dot_product / (norm1 * norm2)

/-- The embedding vector as the float list `similarity` consumes. -/
noncomputable def embedR (text : Text) : List ℝ := (embed text).map fun q => (q : ℝ)

end SimpleEmbedding

/-- A filter condition of `MetadataFilter.matches`: either a literal
scalar (exact equality) or an operator object carrying whichever of
`$gte`, `$lte`, `$in`, `$ne` are present. -/
inductive Condition (α : Type) where
  | lit (v : α)
  | ops (gteV lteV : Option α) (inV : Option (List α)) (neV : Option α)

namespace MetadataFilter

/-- Per-key check of `MetadataFilter.matches` on the looked-up metadata
value: a literal requires equality; an operator object fails when
`doc_value < $gte`, `doc_value > $lte`, `doc_value not in $in`, or
`doc_value == $ne`. -/
def condHolds [LinearOrder α] (doc_value : α) : Condition α → Bool
  | .lit c => decide (doc_value = c)
  | .ops g l inl n =>
    (match g with | some gv => !decide (doc_value < gv) | none => true) &&
    (match l with | some lv => !decide (lv < doc_value) | none => true) &&
    (match inl with | some xs => decide (doc_value ∈ xs) | none => true) &&
    (match n with | some nv => !decide (doc_value = nv) | none => true)

/-- Model of `MetadataFilter.matches` of
`patterns/04-metadata-filtering/example.py`: every filter key must be
present in the metadata and its condition must hold; the maps are
represented as association lists in insertion order. -/
def matches' [LinearOrder α] (doc_metadata : List (String × α)) :
    List (String × Condition α) → Bool
  | [] => true
  | (key, condition) :: rest =>
    match doc_metadata.lookup key with
    | none => false
    | some doc_value => condHolds doc_value condition && matches' doc_metadata rest

end MetadataFilter

namespace SimpleReRanker

/-- Model of `SimpleReRanker.score` of `patterns/03-reranking/example.py`:
phrase bonus over all contiguous query-word windows `[i:j]`, keyword
bonus for query words longer than 3 characters, then the density
adjustment for non-empty text. Floats are modelled exactly as rationals. -/
def score (query document : Text) : ℚ :=
  let query_lower := lowerText query
  let doc_lower := lowerText document
  let query_words := pyWords query_lower
  let n := query_words.length
  let score1 : ℚ := (List.range n).foldl (fun s i =>
      (List.range' (i + 1) (n - i)).foldl (fun s' j =>
        if pyIn (List.intercalate [' '] ((query_words.drop i).take (j - i))) doc_lower
        then s' + 2 * ((j - i : ℕ) : ℚ) else s') s) 0
  let score2 : ℚ := query_words.foldl (fun s word =>
      if word.length > 3 then s + (countOcc word doc_lower : ℚ) * (1 / 2) else s) score1
  if doc_lower.length > 0 then
    let density := score2 / ((doc_lower.length : ℚ) / 100)
    score2 * (1 + density * (1 / 10))
  else score2

/-- Reference reranker score written from the specification's words
(claim C6): a base score adding `2 × L` for every contiguous run of
`L ≥ 1` query words found verbatim as a substring of the lowercased
candidate text, plus `0.5 × occurrenceCount` for each query word longer
than 3 characters; for non-empty candidate text the base is scaled by
`(1 + 0.1 × score / (textLength / 100))`. -/
def scoreSpec (query document : Text) : ℚ :=
  let doc_lower := lowerText document
  let query_words := pyWords (lowerText query)
  let n := query_words.length
  let base : ℚ :=
    (∑ i ∈ Finset.range n, ∑ j ∈ Finset.Ico (i + 1) (n + 1),
        if pyIn (List.intercalate [' '] ((query_words.drop i).take (j - i))) doc_lower
        then 2 * ((j - i : ℕ) : ℚ) else 0)
    + ((query_words.map fun word =>
        if word.length > 3 then (1 / 2 : ℚ) * (countOcc word doc_lower : ℚ) else 0).sum)
  if doc_lower.length ≠ 0 then
    base * (1 + (1 / 10) * base / ((doc_lower.length : ℚ) / 100))
  else base

end SimpleReRanker

namespace ReRankingRetriever

/-- Model of `ReRankingRetriever.retrieve_with_reranking` of
`patterns/03-reranking/example.py`. The injected collaborators are
abstracted exactly where the class holds them: `simOf doc` stands for
`self.embedding.similarity(query_embedding, self.doc_embeddings[doc.id])`
and `rerankOf doc` for `self.reranker.score(query, doc.content)`, both
functions of the fixed query. Python's stable `list.sort(key=score,
reverse=True)` is modelled by a stable insertion sort with the
descending-by-score relation. Returns the stage-1 candidates and the
final reranked results. -/
def retrieve_with_reranking {β : Type} [LinearOrder β] (simOf rerankOf : Doc → β)
    (documents : List Doc) (top_k candidate_multiplier : Nat) :
    List (Doc × β) × List (Doc × β) :=
  let candidate_count := top_k * candidate_multiplier
  let vector_results := documents.map fun doc => (doc, simOf doc)
  let sorted := List.insertionSort (fun a b : Doc × β => b.2 ≤ a.2) vector_results
  let candidates := sorted.take candidate_count
  let reranked_results := candidates.map fun p => (p.1, rerankOf p.1)
  let rsorted := List.insertionSort (fun a b : Doc × β => b.2 ≤ a.2) reranked_results
  (candidates, rsorted.take top_k)

end ReRankingRetriever

namespace QueryDecompositionRetriever

/-- The deduplication loop of `retrieve_decomposed` (step 3): walk the
collected hits keeping each document id only the first time it is seen. -/
def dedupLoop : List Nat → List Doc → List Doc
  | _, [] => []
  | seen_ids, doc :: rest =>
    if doc.id ∈ seen_ids then dedupLoop seen_ids rest
    else doc :: dedupLoop (doc.id :: seen_ids) rest

/-- Model of `QueryDecompositionRetriever.retrieve_decomposed` of
`patterns/05-query-decomposition/example.py`: decompose the query,
retrieve a ranked top list per sub-question (stable descending sort by
score, as in `retrieve_with_reranking`), concatenate the hits in
sub-question order, and deduplicate by document id keeping first-seen
order. `decompose` stands for `self.llm.decompose_query` and
`simOf sub_q doc` for
`self.embedding.similarity(self.embedding.embed(sub_q),
self.doc_embeddings[doc.id])`. -/
def retrieve_decomposed {β : Type} [LinearOrder β]
    (decompose : Text → List Text) (simOf : Text → Doc → β)
    (documents : List Doc) (query : Text) (top_k_per_question : Nat) :
    List Text × List (Text × List (Doc × β)) × List Doc :=
  let sub_questions := decompose query
  let sub_results := sub_questions.map fun sub_q =>
    (sub_q, (List.insertionSort (fun a b : Doc × β => b.2 ≤ a.2)
        (documents.map fun doc => (doc, simOf sub_q doc))).take top_k_per_question)
  let all_docs := sub_results.flatMap fun p => p.2.map Prod.fst
  (sub_questions, sub_results, dedupLoop [] all_docs)

end QueryDecompositionRetriever

namespace MockLLM

/-- Model of `MockLLM.decompose_query` of
`patterns/05-query-decomposition/example.py`: the fixed-priority rule
table. Rule 1 fires only when a comparison marker and both recognized
subjects are present; rules are checked top to bottom on the lowercased
query; the default returns the query itself. -/
def decompose_query (query : Text) : List Text :=
  let query_lower := lowerText query
  if (pyIn "compare".toList query_lower || pyIn " vs ".toList query_lower)
      && (pyIn "asyncio".toList query_lower && pyIn "threading".toList query_lower) then
    ["What is asyncio and how does it work?".toList,
     "What is threading and how does it work?".toList,
     "What are the key differences between asyncio and threading?".toList]
  else if (pyIn "benefit".toList query_lower || pyIn "advantage".toList query_lower)
      && (pyIn "drawback".toList query_lower || pyIn "disadvantage".toList query_lower) then
    ["What are the benefits of RAG systems?".toList,
     "What are the drawbacks of RAG systems?".toList,
     "When should you use RAG systems?".toList]
  else if pyIn "how".toList query_lower && pyIn " and ".toList query_lower then
    ["How do I set up the feature?".toList,
     "How do I use the feature?".toList,
     "What are common issues?".toList]
  else if pyIn " and ".toList query_lower then
    (pySplit " and ".toList query).map fun part =>
      if ['?'].isSuffixOf part then pyStrip part else pyStrip part ++ ['?']
  else [query]

end MockLLM

/-! Theorems. First the chunker: the loop invariant, the refinement to
the adjacent-pair split, and the claims C1, C2, C3, C10. -/

/-- The specification-side split never returns an empty group list. -/
theorem splitAdjFrom_ne_nil (t : ℚ) (s : Text) (rest : List Text) :
    splitAdjFrom t s rest ≠ [] := by
  cases rest with
  | nil => simp [splitAdjFrom]
  | cons s2 r =>
    simp only [splitAdjFrom]
    split
    · cases h : splitAdjFrom t s2 r <;> simp
    · simp

/-- Loop invariant of `chunkLoop`: when the current chunk is `pre ++ [s]`
(so `s` is the sentence added last, which is the immediately preceding
input sentence), the emitted chunk partition is the adjacent-pair split
of `s :: rest` with `pre` prepended to its first group. -/
theorem chunkLoop_sentences (t : ℚ) (rest : List Text) :
    ∀ (pre : List Text) (s : Text) (cid : Nat),
      (SemanticChunker.chunkLoop t (pre ++ [s]) cid rest).map Chunk.sentences =
        consOnto pre (splitAdjFrom t s rest) := by
  induction rest with
  | nil =>
    intro pre s cid
    simp [SemanticChunker.chunkLoop, splitAdjFrom, consOnto, SemanticChunker.mkChunk]
  | cons s2 r ih =>
    intro pre s cid
    have hlast : (pre ++ [s]).getLastD [] = s := List.getLastD_concat _ _ _
    by_cases hsim : SemanticChunker.calculate_similarity s s2 ≥ t
    · have h1 : SemanticChunker.chunkLoop t (pre ++ [s]) cid (s2 :: r) =
          SemanticChunker.chunkLoop t ((pre ++ [s]) ++ [s2]) cid r := by
        simp [SemanticChunker.chunkLoop, hlast, hsim]
      obtain ⟨g, gs, hg⟩ : ∃ g gs, splitAdjFrom t s2 r = g :: gs := by
        cases h : splitAdjFrom t s2 r with
        | nil => exact absurd h (splitAdjFrom_ne_nil t s2 r)
        | cons g gs => exact ⟨g, gs, rfl⟩
      rw [h1, ih]
      simp [splitAdjFrom, hsim, hg, consOnto]
    · have h1 : SemanticChunker.chunkLoop t (pre ++ [s]) cid (s2 :: r) =
          SemanticChunker.mkChunk cid (pre ++ [s])
              (SemanticChunker.calculate_similarity s s2) ::
            SemanticChunker.chunkLoop t [s2] (cid + 1) r := by
        simp [SemanticChunker.chunkLoop, hlast, hsim]
      obtain ⟨g, gs, hg⟩ : ∃ g gs, splitAdjFrom t s2 r = g :: gs := by
        cases h : splitAdjFrom t s2 r with
        | nil => exact absurd h (splitAdjFrom_ne_nil t s2 r)
        | cons g gs => exact ⟨g, gs, rfl⟩
      have h2 := ih [] s2 (cid + 1)
      rw [h1]
      simp only [List.map_cons, List.nil_append] at h2 ⊢
      rw [h2]
      simp [splitAdjFrom, hsim, hg, consOnto, SemanticChunker.mkChunk]

/-- Flattening the adjacent-pair split recovers the input sentences. -/
theorem splitAdjFrom_flatten (t : ℚ) (rest : List Text) :
    ∀ s : Text, (splitAdjFrom t s rest).flatten = s :: rest := by
  induction rest with
  | nil => intro s; simp [splitAdjFrom]
  | cons s2 r ih =>
    intro s
    by_cases hsim : SemanticChunker.calculate_similarity s s2 ≥ t
    · obtain ⟨g, gs, hg⟩ : ∃ g gs, splitAdjFrom t s2 r = g :: gs := by
        cases h : splitAdjFrom t s2 r with
        | nil => exact absurd h (splitAdjFrom_ne_nil t s2 r)
        | cons g gs => exact ⟨g, gs, rfl⟩
      have := ih s2
      rw [hg] at this
      simp only [splitAdjFrom, hsim, if_pos, hg]
      simpa using this
    · simp only [splitAdjFrom, hsim, if_neg, not_false_iff]
      simp [ih s2]

/-- Claim C10: the stateful chunker loop keeps, at every step, the
immediately preceding input sentence as the last sentence of the current
chunk, and is therefore extensionally equal to the simple function that
splits the sentence list exactly at the adjacent pairs whose similarity
is below the threshold: the chunk partitions coincide for every
threshold and sentence list, in both chunker variants (they share the
loop). -/
theorem c10_chunker_refines_adjacent_split (t : ℚ) (sentences : List Text) :
    (SemanticChunker.chunkSentences t sentences).map Chunk.sentences =
      splitAtBoundaries t sentences := by
  cases sentences with
  | nil => rfl
  | cons s rest =>
    have h := chunkLoop_sentences t rest [] s 0
    simp only [List.nil_append] at h
    rw [SemanticChunker.chunkSentences, h, splitAtBoundaries]
    obtain ⟨g, gs, hg⟩ : ∃ g gs, splitAdjFrom t s rest = g :: gs := by
      cases hx : splitAdjFrom t s rest with
      | nil => exact absurd hx (splitAdjFrom_ne_nil t s rest)
      | cons g gs => exact ⟨g, gs, rfl⟩
    rw [hg]
    simp [consOnto]

/-- Ids of the chunks emitted by the loop are consecutive from the
starting id. -/
theorem chunkLoop_ids (t : ℚ) (rest : List Text) :
    ∀ (cur : List Text) (cid : Nat),
      (SemanticChunker.chunkLoop t cur cid rest).map Chunk.id =
        List.range' cid (SemanticChunker.chunkLoop t cur cid rest).length := by
  induction rest with
  | nil => intro cur cid; simp [SemanticChunker.chunkLoop, SemanticChunker.mkChunk]
  | cons s2 r ih =>
    intro cur cid
    by_cases hsim :
        SemanticChunker.calculate_similarity (cur.getLastD []) s2 ≥ t
    · simp only [SemanticChunker.chunkLoop, hsim, if_pos]
      exact ih (cur ++ [s2]) cid
    · simp only [SemanticChunker.chunkLoop, hsim, if_neg, not_false_iff,
        List.map_cons, List.length_cons]
      rw [ih [s2] (cid + 1), List.range'_succ]
      simp [SemanticChunker.mkChunk]

/-- Every chunk the loop emits has its text equal to the space-join of
its sentences, its char count equal to the length of that text, and its
sentence count equal to the number of its sentences. -/
theorem chunkLoop_text_props (t : ℚ) (rest : List Text) :
    ∀ (cur : List Text) (cid : Nat),
      ∀ c ∈ SemanticChunker.chunkLoop t cur cid rest,
        c.text = List.intercalate [' '] c.sentences ∧
        c.char_count = c.text.length ∧
        c.sentence_count = c.sentences.length := by
  induction rest with
  | nil =>
    intro cur cid c hc
    simp only [SemanticChunker.chunkLoop, List.mem_singleton] at hc
    subst hc
    exact ⟨rfl, rfl, rfl⟩
  | cons s2 r ih =>
    intro cur cid c hc
    by_cases hsim :
        SemanticChunker.calculate_similarity (cur.getLastD []) s2 ≥ t
    · simp only [SemanticChunker.chunkLoop, hsim, if_pos] at hc
      exact ih (cur ++ [s2]) cid c hc
    · simp only [SemanticChunker.chunkLoop, hsim, if_neg, not_false_iff,
        List.mem_cons] at hc
      rcases hc with hc | hc
      · subst hc; exact ⟨rfl, rfl, rfl⟩
      · exact ih [s2] (cid + 1) c hc

/-- Claim C1: for every non-empty sentence list the chunker returns at
least one chunk; concatenating, in chunk-id order, each chunk's member
sentences yields exactly the input sentence list (chunk ids are
`0, 1, 2, …` in output order, so output order is id order); each chunk's
text is the space-joined concatenation of its member sentences and its
`char_count` is the length of that text. `chunk_document` is this
function applied to the split sentences of the document. -/
theorem c1_chunk_partition (t : ℚ) (sentences : List Text)
    (h : sentences ≠ []) :
    SemanticChunker.chunkSentences t sentences ≠ [] ∧
    (SemanticChunker.chunkSentences t sentences).flatMap Chunk.sentences =
      sentences ∧
    (SemanticChunker.chunkSentences t sentences).map Chunk.id =
      List.range (SemanticChunker.chunkSentences t sentences).length ∧
    (∀ c ∈ SemanticChunker.chunkSentences t sentences,
      c.text = List.intercalate [' '] c.sentences ∧
      c.char_count = c.text.length) ∧
    (∀ text : Text, SemanticChunker.chunk_document t text =
      SemanticChunker.chunkSentences t (SemanticChunker.split_sentences text)) := by
  obtain ⟨s, rest, rfl⟩ : ∃ s rest, sentences = s :: rest := by
    cases sentences with
    | nil => exact absurd rfl h
    | cons s rest => exact ⟨s, rest, rfl⟩
  refine ⟨?_, ?_, ?_, ?_, fun _ => rfl⟩
  · intro hnil
    have := c10_chunker_refines_adjacent_split t (s :: rest)
    rw [hnil] at this
    exact splitAdjFrom_ne_nil t s rest
      (by simpa [splitAtBoundaries] using this.symm)
  · rw [List.flatMap_def, c10_chunker_refines_adjacent_split t (s :: rest)]
    simpa [splitAtBoundaries] using splitAdjFrom_flatten t rest s
  · rw [SemanticChunker.chunkSentences, chunkLoop_ids t rest [s] 0,
      List.range_eq_range']
  · intro c hc
    have := chunkLoop_text_props t rest [s] 0 c
      (by simpa [SemanticChunker.chunkSentences] using hc)
    exact ⟨this.1, this.2.1⟩

/-- Witness for C1 at a concrete threshold and two-sentence list. -/
theorem c1_chunk_partition_witness :
    (["a b.".toList, "b c.".toList] : List Text) ≠ [] ∧
    (SemanticChunker.chunkSentences (3/10) ["a b.".toList, "b c.".toList] ≠ [] ∧
    (SemanticChunker.chunkSentences (3/10)
        ["a b.".toList, "b c.".toList]).flatMap Chunk.sentences =
      ["a b.".toList, "b c.".toList] ∧
    (SemanticChunker.chunkSentences (3/10)
        ["a b.".toList, "b c.".toList]).map Chunk.id =
      List.range (SemanticChunker.chunkSentences (3/10)
        ["a b.".toList, "b c.".toList]).length ∧
    (∀ c ∈ SemanticChunker.chunkSentences (3/10) ["a b.".toList, "b c.".toList],
      c.text = List.intercalate [' '] c.sentences ∧
      c.char_count = c.text.length) ∧
    (∀ text : Text, SemanticChunker.chunk_document (3/10) text =
      SemanticChunker.chunkSentences (3/10)
        (SemanticChunker.split_sentences text))) :=
  ⟨by decide, c1_chunk_partition (3/10) ["a b.".toList, "b c.".toList] (by decide)⟩

/-- Length of the adjacent-pair split is monotone in the threshold:
raising the threshold can only add boundaries. -/
theorem splitAdjFrom_length_mono (t1 t2 : ℚ) (h12 : t1 ≤ t2) (rest : List Text) :
    ∀ s : Text,
      (splitAdjFrom t1 s rest).length ≤ (splitAdjFrom t2 s rest).length := by
  induction rest with
  | nil => intro s; simp [splitAdjFrom]
  | cons s2 r ih =>
    intro s
    obtain ⟨g1, gs1, hg1⟩ : ∃ g gs, splitAdjFrom t1 s2 r = g :: gs := by
      cases hx : splitAdjFrom t1 s2 r with
      | nil => exact absurd hx (splitAdjFrom_ne_nil t1 s2 r)
      | cons g gs => exact ⟨g, gs, rfl⟩
    obtain ⟨g2, gs2, hg2⟩ : ∃ g gs, splitAdjFrom t2 s2 r = g :: gs := by
      cases hx : splitAdjFrom t2 s2 r with
      | nil => exact absurd hx (splitAdjFrom_ne_nil t2 s2 r)
      | cons g gs => exact ⟨g, gs, rfl⟩
    have hlen := ih s2
    rw [hg1, hg2] at hlen
    by_cases h1 : SemanticChunker.calculate_similarity s s2 ≥ t1
    · by_cases h2 : SemanticChunker.calculate_similarity s s2 ≥ t2
      · simp only [splitAdjFrom, h1, h2, if_pos, hg1, hg2]
        simpa using hlen
      · simp only [splitAdjFrom, h1, if_pos, h2, if_neg, not_false_iff, hg1, hg2]
        simp only [List.length_cons] at hlen ⊢
        omega
    · have h2 : ¬ SemanticChunker.calculate_similarity s s2 ≥ t2 := by
        intro hge
        exact h1 (le_trans h12 hge)
      simp only [splitAdjFrom, h1, h2, if_neg, not_false_iff]
      simp only [List.length_cons]
      rw [hg1, hg2] at *
      simpa using hlen

/-- Claim C2: for thresholds `t1 ≤ t2` in `[0, 1]` and every document
text, the chunk count at threshold `t1` is at most the chunk count at
threshold `t2` (raising the threshold makes merging harder and can only
increase the number of chunks). -/
theorem c2_threshold_monotone (t1 t2 : ℚ) (text : Text)
    (h0 : 0 ≤ t1) (h12 : t1 ≤ t2) (h1 : t2 ≤ 1) :
    (SemanticChunker.chunk_document t1 text).length ≤
      (SemanticChunker.chunk_document t2 text).length := by
  have key : ∀ u : ℚ, (SemanticChunker.chunk_document u text).length =
      (splitAtBoundaries u (SemanticChunker.split_sentences text)).length := by
    intro u
    have := congrArg List.length
      (c10_chunker_refines_adjacent_split u (SemanticChunker.split_sentences text))
    simpa [SemanticChunker.chunk_document] using this
  rw [key t1, key t2]
  cases hs : SemanticChunker.split_sentences text with
  | nil => simp [splitAtBoundaries]
  | cons s rest =>
    simpa [splitAtBoundaries] using splitAdjFrom_length_mono t1 t2 h12 rest s

/-- Witness for C2 at concrete thresholds and document. -/
theorem c2_threshold_monotone_witness :
    (0 : ℚ) ≤ 1/10 ∧ (1/10 : ℚ) ≤ 1/2 ∧ (1/2 : ℚ) ≤ 1 ∧
    (SemanticChunker.chunk_document (1/10) "a b. b c. x y.".toList).length ≤
      (SemanticChunker.chunk_document (1/2) "a b. b c. x y.".toList).length :=
  ⟨by norm_num, by norm_num, by norm_num,
    c2_threshold_monotone (1/10) (1/2) "a b. b c. x y.".toList
      (by norm_num) (by norm_num) (by norm_num)⟩

/-- Claim C3 (the demo variant violates it): the pattern variant of
`chunk_document` maps the empty and a whitespace-only document to the
empty chunk list, but the demo variant of the repository raises
`IndexError` (modelled as `none`) on the same inputs, although its own
test `test_empty_document` expects `chunk_document("")` to return
gracefully. -/
theorem c3_empty_document :
    SemanticChunker.chunk_document (3/10) [] = [] ∧
    SemanticChunker.chunk_document (3/10) " \t\n ".toList = [] ∧
    DemoChunker.chunk_document (3/10) [] = none ∧
    DemoChunker.chunk_document (3/10) " \t\n ".toList = none :=
  ⟨by decide!, by decide!, by decide!, by decide!⟩

/-- The per-key condition check agrees with its propositional reading:
a literal is exact equality; an operator object requires every present
operator conjunctively (`$gte` as `value ≤ metadata[key]`, `$lte` as
`metadata[key] ≤ value`, `$in` as membership, `$ne` as inequality). -/
theorem condHolds_iff {α : Type} [LinearOrder α] (v : α) (c : Condition α) :
    MetadataFilter.condHolds v c = true ↔
      (match c with
       | Condition.lit x => v = x
       | Condition.ops g l inl n =>
           (∀ gv ∈ g, gv ≤ v) ∧ (∀ lv ∈ l, v ≤ lv) ∧
           (∀ xs ∈ inl, v ∈ xs) ∧ (∀ nv ∈ n, v ≠ nv)) := by
  cases c with
  | lit x => simp [MetadataFilter.condHolds]
  | ops g l inl n =>
    cases g <;> cases l <;> cases inl <;> cases n <;>
      simp [MetadataFilter.condHolds, not_lt, and_assoc]

/-- Claim C4: `matches` returns `True` iff every filter key is present
in the metadata and its condition holds (literal conditions by exact
equality, operator conditions by the conjunction of the present
operators); in particular a filter key absent from the metadata makes
the result `False`, and the `version = v3, language = python` filter
rejects a `version = v2, language = python` document. -/
theorem c4_metadata_filter_matches :
    (∀ (α : Type) [LinearOrder α] (md : List (String × α))
        (fs : List (String × Condition α)),
      MetadataFilter.matches' md fs = true ↔
        ∀ kc ∈ fs, ∃ v, md.lookup kc.1 = some v ∧
          (match kc.2 with
           | Condition.lit x => v = x
           | Condition.ops g l inl n =>
               (∀ gv ∈ g, gv ≤ v) ∧ (∀ lv ∈ l, v ≤ lv) ∧
               (∀ xs ∈ inl, v ∈ xs) ∧ (∀ nv ∈ n, v ≠ nv))) ∧
    MetadataFilter.matches' [("version", "v2"), ("language", "python")]
      [("version", Condition.lit "v3"), ("language", Condition.lit "python")]
      = false := by
  constructor
  · intro α _ md fs
    induction fs with
    | nil => simp [MetadataFilter.matches']
    | cons kc rest ih =>
      obtain ⟨k, cond⟩ := kc
      cases hl : md.lookup k with
      | none =>
        simp only [MetadataFilter.matches', hl]
        constructor
        · intro h; cases h
        · intro h
          obtain ⟨v, hv, _⟩ := h (k, cond) (List.mem_cons_self _ _)
          rw [hl] at hv; cases hv
      | some v =>
        simp only [MetadataFilter.matches', hl, Bool.and_eq_true]
        rw [ih, condHolds_iff]
        constructor
        · rintro ⟨h1, h2⟩ kc hkc
          rcases List.mem_cons.mp hkc with rfl | hkc
          · exact ⟨v, hl, h1⟩
          · exact h2 kc hkc
        · intro h
          refine ⟨?_, fun kc hkc => h kc (List.mem_cons_of_mem _ hkc)⟩
          obtain ⟨w, hw, hcond⟩ := h (k, cond) (List.mem_cons_self _ _)
          rw [hl] at hw
          injection hw with hw
          subst hw
          exact hcond
  · decide!

/-- Claim C7: for every corpus, scorer pair, `topK > 0` and
`candidateMultiplier ≥ 1`, two-stage retrieval returns a stage-1
candidate list of length `min (candidateMultiplier × topK) corpusSize`
(all documents when fewer than `candidateMultiplier × topK` exist) and a
final reranked list of length `min topK (length of the stage-1 list)`,
stage 2 operating on exactly the stage-1 candidate set. -/
theorem c7_two_stage_lengths {β : Type} [LinearOrder β]
    (simOf rerankOf : Doc → β) (documents : List Doc)
    (top_k candidate_multiplier : Nat)
    (htop : 0 < top_k) (hmult : 1 ≤ candidate_multiplier) :
    (ReRankingRetriever.retrieve_with_reranking simOf rerankOf documents
        top_k candidate_multiplier).1.length =
      min (candidate_multiplier * top_k) documents.length ∧
    (ReRankingRetriever.retrieve_with_reranking simOf rerankOf documents
        top_k candidate_multiplier).2.length =
      min top_k (ReRankingRetriever.retrieve_with_reranking simOf rerankOf
        documents top_k candidate_multiplier).1.length := by
  constructor
  · simp [ReRankingRetriever.retrieve_with_reranking, List.length_take,
      List.length_insertionSort, Nat.mul_comm]
  · simp [ReRankingRetriever.retrieve_with_reranking, List.length_take,
      List.length_insertionSort]

/-- Witness for C7 on a two-document corpus with `topK = 1` and
multiplier `3`. -/
theorem c7_two_stage_lengths_witness :
    (ReRankingRetriever.retrieve_with_reranking (fun d => d.id) (fun _ => 0)
        [⟨0, []⟩, ⟨1, []⟩] 1 3).1.length = min (3 * 1) 2 ∧
    (ReRankingRetriever.retrieve_with_reranking (fun d => d.id) (fun _ => 0)
        [⟨0, []⟩, ⟨1, []⟩] 1 3).2.length =
      min 1 (ReRankingRetriever.retrieve_with_reranking (fun d => d.id)
        (fun _ => 0) [⟨0, []⟩, ⟨1, []⟩] 1 3).1.length := by
  have h := c7_two_stage_lengths (fun d => d.id) (fun _ => (0 : Nat))
    [⟨0, []⟩, ⟨1, []⟩] 1 3 (by decide) (by decide)
  simpa using h

/-- The dedup loop only consults the seen set through membership. -/
theorem dedupLoop_congr (l : List Doc) :
    ∀ (s1 s2 : List Nat), (∀ i, i ∈ s1 ↔ i ∈ s2) →
      QueryDecompositionRetriever.dedupLoop s1 l =
        QueryDecompositionRetriever.dedupLoop s2 l := by
  induction l with
  | nil => intro s1 s2 _; rfl
  | cons d rest ih =>
    intro s1 s2 hmem
    by_cases hd : d.id ∈ s1
    · have hd2 : d.id ∈ s2 := (hmem d.id).mp hd
      simp only [QueryDecompositionRetriever.dedupLoop, hd, hd2, if_pos]
      exact ih s1 s2 hmem
    · have hd2 : d.id ∉ s2 := fun h => hd ((hmem d.id).mpr h)
      simp only [QueryDecompositionRetriever.dedupLoop, hd, hd2, if_neg,
        not_false_iff]
      refine congrArg _ (ih _ _ ?_)
      intro i
      simp [hmem i]

/-- Splitting the dedup loop at an append: the first block is deduped
against the initial seen set, the second against the ids kept from the
first block in addition. -/
theorem dedupLoop_append (l1 : List Doc) :
    ∀ (seen : List Nat) (l2 : List Doc),
      QueryDecompositionRetriever.dedupLoop seen (l1 ++ l2) =
        QueryDecompositionRetriever.dedupLoop seen l1 ++
          QueryDecompositionRetriever.dedupLoop
            ((QueryDecompositionRetriever.dedupLoop seen l1).map Doc.id ++ seen)
            l2 := by
  induction l1 with
  | nil => intro seen l2; simp [QueryDecompositionRetriever.dedupLoop]
  | cons d rest ih =>
    intro seen l2
    by_cases hd : d.id ∈ seen
    · simp only [List.cons_append, QueryDecompositionRetriever.dedupLoop, hd,
        if_pos]
      exact ih seen l2
    · simp only [List.cons_append, QueryDecompositionRetriever.dedupLoop, hd,
        if_neg, not_false_iff, List.map_cons, List.cons_append, List.append_eq]
      rw [ih (d.id :: seen) l2]
      refine congrArg _ (congrArg _ (dedupLoop_congr l2 _ _ ?_))
      intro i
      simp only [List.mem_append, List.mem_cons]
      tauto

/-- Claim C9: fan-out fusion deduplicates the collected hits by document
id keeping first-seen order, with no cross-sub-query score aggregation:
the fused list is the first-seen dedup of the concatenated per-sub-query
top lists; for two blocks, the first block's hits appear first (deduped)
and the second block contributes only previously-unseen documents in its
own order; in particular sub-queries ranking `[A, B]` and `[B, C]` fuse
to `[A, B, C]`. -/
theorem c9_fusion_dedup_first_seen :
    (∀ {β : Type} [inst : LinearOrder β] (decompose : Text → List Text)
        (simOf : Text → Doc → β) (documents : List Doc) (query : Text)
        (top_k_per_question : Nat),
      (QueryDecompositionRetriever.retrieve_decomposed decompose simOf
          documents query top_k_per_question).2.2 =
        QueryDecompositionRetriever.dedupLoop []
          (((QueryDecompositionRetriever.retrieve_decomposed decompose simOf
              documents query top_k_per_question).2.1).flatMap
            fun p => p.2.map Prod.fst)) ∧
    (∀ (hits1 hits2 : List Doc),
      QueryDecompositionRetriever.dedupLoop [] (hits1 ++ hits2) =
        QueryDecompositionRetriever.dedupLoop [] hits1 ++
          QueryDecompositionRetriever.dedupLoop
            ((QueryDecompositionRetriever.dedupLoop [] hits1).map Doc.id)
            hits2) ∧
    (QueryDecompositionRetriever.retrieve_decomposed
        (fun _ => ["q1".toList, "q2".toList])
        (fun sq doc => if sq = "q1".toList then [30, 20, 10].getD (doc.id - 1) 0
          else [10, 30, 20].getD (doc.id - 1) 0)
        [⟨1, []⟩, ⟨2, []⟩, ⟨3, []⟩] "q".toList 2).2.2 =
      [⟨1, []⟩, ⟨2, []⟩, ⟨3, []⟩] := by
  refine ⟨fun {β} _ _ _ _ _ _ => rfl, ?_, by decide⟩
  intro hits1 hits2
  have h := dedupLoop_append hits1 [] hits2
  simpa using h

/-- Python `str.split` never returns an empty list of parts. -/
theorem pySplitGo_ne_nil (sep : Text) :
    ∀ (skip : Nat) (s : Text), pySplitGo sep skip s ≠ [] := by
  intro skip s
  induction s generalizing skip with
  | nil => cases skip <;> simp [pySplitGo]
  | cons c rest ih =>
    cases skip with
    | zero =>
      simp only [pySplitGo]
      split
      · simp
      · cases h : pySplitGo sep 0 rest <;> simp
    | succ k => simpa [pySplitGo] using ih k

/-- Claim C8 as frozen is false: for the query `"alpha and beta "`
(which contains `" and "` and matches none of the earlier rules) the
code does not return the verbatim split with `"?"` appended — it strips
each segment first, so the trailing-space segment `"beta "` becomes
`"beta?"` rather than the verbatim `"beta ?"`. -/
theorem c8_counterexample_decompose_not_verbatim :
    (pyIn " and ".toList (lowerText "alpha and beta ".toList) = true ∧
     ((pyIn "compare".toList (lowerText "alpha and beta ".toList) ||
        pyIn " vs ".toList (lowerText "alpha and beta ".toList)) &&
       (pyIn "asyncio".toList (lowerText "alpha and beta ".toList) &&
        pyIn "threading".toList (lowerText "alpha and beta ".toList))) = false ∧
     ((pyIn "benefit".toList (lowerText "alpha and beta ".toList) ||
        pyIn "advantage".toList (lowerText "alpha and beta ".toList)) &&
       (pyIn "drawback".toList (lowerText "alpha and beta ".toList) ||
        pyIn "disadvantage".toList (lowerText "alpha and beta ".toList))) = false ∧
     pyIn "how".toList (lowerText "alpha and beta ".toList) = false) ∧
    MockLLM.decompose_query "alpha and beta ".toList ≠
      (pySplit " and ".toList "alpha and beta ".toList).map
        (fun part => if ['?'].isSuffixOf part then part else part ++ ['?']) := by
  exact ⟨by decide, by decide⟩

/-- Claim C8 amended: the decomposer returns a non-empty list for every
query; and for every query containing `" and "` (lowercased) that
matches none of the earlier rules, the result is the split of the query
on `" and "` with each segment stripped of surrounding whitespace and
`"?"` appended to every segment whose unstripped form does not already
end in `"?"`. -/
theorem c8_decompose_amended (query : Text)
    (h1 : pyIn " and ".toList (lowerText query) = true)
    (h2 : ((pyIn "compare".toList (lowerText query) ||
            pyIn " vs ".toList (lowerText query)) &&
           (pyIn "asyncio".toList (lowerText query) &&
            pyIn "threading".toList (lowerText query))) = false)
    (h3 : ((pyIn "benefit".toList (lowerText query) ||
            pyIn "advantage".toList (lowerText query)) &&
           (pyIn "drawback".toList (lowerText query) ||
            pyIn "disadvantage".toList (lowerText query))) = false)
    (h4 : pyIn "how".toList (lowerText query) = false) :
    (∀ q : Text, MockLLM.decompose_query q ≠ []) ∧
    MockLLM.decompose_query query =
      (pySplit " and ".toList query).map
        (fun part => if ['?'].isSuffixOf part then pyStrip part
          else pyStrip part ++ ['?']) := by
  constructor
  · intro q
    simp only [MockLLM.decompose_query]
    split
    · simp
    · split
      · simp
      · split
        · simp
        · split
          · have hq := pySplitGo_ne_nil " and ".toList 0 q
            simp [pySplit]
            intro hcontra
            exact hq hcontra
          · simp
  · simp only [MockLLM.decompose_query, h1, h2, h3, h4]
    simp

/-- Witness for the amended C8 on the query `"alpha and beta"`. -/
theorem c8_decompose_amended_witness :
    MockLLM.decompose_query "alpha and beta".toList =
      ["alpha?".toList, "beta?".toList] :=
  ((c8_decompose_amended "alpha and beta".toList (by decide) (by decide)
      (by decide) (by decide)).2).trans (by decide)

/-- A left fold that conditionally adds a weight equals the start value
plus the sum of the weights of the elements satisfying the condition. -/
theorem foldl_add_if {α : Type} (p : α → Prop) [DecidablePred p] (g : α → ℚ) :
    ∀ (l : List α) (a : ℚ),
      l.foldl (fun s x => if p x then s + g x else s) a =
        a + (l.map fun x => if p x then g x else 0).sum := by
  intro l
  induction l with
  | nil => intro a; simp
  | cons x rest ih =>
    intro a
    simp only [List.foldl_cons, List.map_cons, List.sum_cons]
    by_cases hx : p x
    · rw [if_pos hx, if_pos hx, ih]; ring
    · rw [if_neg hx, if_neg hx, ih]; ring

/-- Sum of a function over `List.range' a len` as a `Finset.Ico` sum. -/
theorem sum_map_range' (f : Nat → ℚ) :
    ∀ (len a : Nat),
      ((List.range' a len).map f).sum = ∑ j ∈ Finset.Ico a (a + len), f j := by
  intro len
  induction len with
  | zero => intro a; simp
  | succ m ih =>
    intro a
    rw [List.range'_succ]
    simp only [List.map_cons, List.sum_cons]
    rw [ih (a + 1)]
    rw [Finset.sum_eq_sum_Ico_succ_bot (by omega : a < a + (m + 1)) f]
    have hb : a + 1 + m = a + (m + 1) := by omega
    rw [hb]

/-- Sum of a function over `List.range n` as a `Finset.range` sum. -/
theorem sum_map_range (f : Nat → ℚ) (n : Nat) :
    ((List.range n).map f).sum = ∑ i ∈ Finset.range n, f i := by
  rw [List.range_eq_range', sum_map_range' f n 0, Finset.range_eq_Ico]
  simp

/-- The double loop of the phrase bonus equals the double `Finset` sum
of the specification. -/
theorem double_fold_eq (n : Nat) (cond : Nat → Nat → Prop)
    [DecidableRel cond] (w : Nat → Nat → ℚ) :
    (List.range n).foldl (fun s i =>
        (List.range' (i + 1) (n - i)).foldl
          (fun s' j => if cond i j then s' + w i j else s') s) 0 =
      ∑ i ∈ Finset.range n, ∑ j ∈ Finset.Ico (i + 1) (n + 1),
        if cond i j then w i j else 0 := by
  have hfun : (fun (s : ℚ) (i : Nat) =>
      (List.range' (i + 1) (n - i)).foldl
        (fun s' j => if cond i j then s' + w i j else s') s) =
      (fun (s : ℚ) (i : Nat) =>
        s + ((List.range' (i + 1) (n - i)).map
          fun j => if cond i j then w i j else 0).sum) := by
    funext s i
    exact foldl_add_if (cond i) (w i) _ s
  calc (List.range n).foldl (fun s i =>
        (List.range' (i + 1) (n - i)).foldl
          (fun s' j => if cond i j then s' + w i j else s') s) 0
      = (List.range n).foldl (fun s i =>
          s + ((List.range' (i + 1) (n - i)).map
            fun j => if cond i j then w i j else 0).sum) 0 :=
        congrArg (fun f => (List.range n).foldl f 0) hfun
    _ = 0 + ((List.range n).map fun i =>
          ((List.range' (i + 1) (n - i)).map
            fun j => if cond i j then w i j else 0).sum).sum :=
        foldl_add_if (fun _ => True) _ (List.range n) 0 |>.trans (by simp)
    _ = ∑ i ∈ Finset.range n, ∑ j ∈ Finset.Ico (i + 1) (n + 1),
          if cond i j then w i j else 0 := by
        rw [zero_add, sum_map_range]
        refine Finset.sum_congr rfl ?_
        intro i hi
        rw [Finset.mem_range] at hi
        rw [sum_map_range']
        have hb : i + 1 + (n - i) = n + 1 := by omega
        rw [hb]

/-- Claim C6: the reranker score equals the reference definition written
from the specification: the phrase-run bonus `2 × L` summed over all
contiguous query-word runs found verbatim in the lowercased candidate
text, plus `0.5 × occurrenceCount` for each query word longer than 3
characters, the base then scaled by
`(1 + 0.1 × base / (textLength / 100))` for non-empty candidate text. -/
theorem c6_reranker_score_spec (query document : Text) :
    SimpleReRanker.score query document = SimpleReRanker.scoreSpec query document := by
  simp only [SimpleReRanker.score, SimpleReRanker.scoreSpec]
  rw [double_fold_eq ((pyWords (lowerText query)).length)
    (fun i j => pyIn (List.intercalate [' ']
      (((pyWords (lowerText query)).drop i).take (j - i))) (lowerText document) = true)
    (fun i j => 2 * ((j - i : ℕ) : ℚ))]
  rw [foldl_add_if (fun word : Text => word.length > 3)
    (fun word => (countOcc word (lowerText document) : ℚ) * (1 / 2))]
  have hmap : (fun word : Text =>
      if word.length > 3 then (countOcc word (lowerText document) : ℚ) * (1 / 2) else 0) =
      (fun word : Text =>
        if word.length > 3 then (1 / 2 : ℚ) * (countOcc word (lowerText document)) else 0) := by
    funext w
    split <;> ring
  rw [hmap]
  set S : ℚ := (∑ i ∈ Finset.range (pyWords (lowerText query)).length,
      ∑ j ∈ Finset.Ico (i + 1) ((pyWords (lowerText query)).length + 1),
        if pyIn (List.intercalate [' ']
          (((pyWords (lowerText query)).drop i).take (j - i))) (lowerText document) = true
        then 2 * ((j - i : ℕ) : ℚ) else 0) +
    ((pyWords (lowerText query)).map fun word =>
      if word.length > 3 then (1 / 2 : ℚ) * (countOcc word (lowerText document)) else 0).sum
    with hS
  by_cases hL : (lowerText document).length = 0
  · rw [if_neg (by omega), if_neg (by simpa using hL)]
  · rw [if_pos (by omega), if_pos hL]
    ring

/-- Jaccard similarity is symmetric. -/
theorem calculate_similarity_symm (a b : Text) :
    SemanticChunker.calculate_similarity a b =
      SemanticChunker.calculate_similarity b a := by
  unfold SemanticChunker.calculate_similarity
  by_cases ha : (pyWords (lowerText a)).toFinset = ∅ <;>
    by_cases hb : (pyWords (lowerText b)).toFinset = ∅ <;>
      simp [ha, hb, Finset.inter_comm, Finset.union_comm]

/-- Jaccard similarity lies in `[0, 1]`. -/
theorem calculate_similarity_range (a b : Text) :
    0 ≤ SemanticChunker.calculate_similarity a b ∧
      SemanticChunker.calculate_similarity a b ≤ 1 := by
  unfold SemanticChunker.calculate_similarity
  dsimp only
  split
  · norm_num
  · rename_i hne
    push_neg at hne
    obtain ⟨ha, _⟩ := hne
    have hsub : (pyWords (lowerText a)).toFinset ∩ (pyWords (lowerText b)).toFinset ⊆
        (pyWords (lowerText a)).toFinset ∪ (pyWords (lowerText b)).toFinset :=
      Finset.inter_subset_union
    have hcard := Finset.card_le_card hsub
    have hupos : 0 < ((pyWords (lowerText a)).toFinset ∪
        (pyWords (lowerText b)).toFinset).card := by
      refine Finset.card_pos.mpr ?_
      obtain ⟨x, hx⟩ := Finset.nonempty_iff_ne_empty.mpr ha
      exact ⟨x, Finset.mem_union_left _ hx⟩
    constructor
    · positivity
    · rw [div_le_one (by exact_mod_cast hupos)]
      exact_mod_cast hcard

/-- Jaccard similarity of a text with itself is `1` when its word set is
non-empty. -/
theorem calculate_similarity_self (x : Text)
    (h : pyWords (lowerText x) ≠ []) :
    SemanticChunker.calculate_similarity x x = 1 := by
  unfold SemanticChunker.calculate_similarity
  have hne : (pyWords (lowerText x)).toFinset ≠ ∅ := by
    simpa [List.toFinset_eq_empty_iff] using h
  rw [if_neg (by simp [hne]), Finset.inter_self, Finset.union_self]
  have hpos : 0 < (pyWords (lowerText x)).toFinset.card :=
    Finset.card_pos.mpr (Finset.nonempty_iff_ne_empty.mpr hne)
  rw [div_self (by exact_mod_cast hpos.ne')]

/-- Jaccard similarity is exactly `0` when either word set is empty. -/
theorem calculate_similarity_empty (a b : Text)
    (h : pyWords (lowerText a) = [] ∨ pyWords (lowerText b) = []) :
    SemanticChunker.calculate_similarity a b = 0 := by
  unfold SemanticChunker.calculate_similarity
  rcases h with h | h <;> simp [h]

/-- Sum of squares of a float list is non-negative. -/
theorem sumSq_nonneg (v : List ℝ) : 0 ≤ SimpleEmbedding.sumSq v := by
  induction v with
  | nil => simp [SimpleEmbedding.sumSq]
  | cons a as ih =>
    simp only [SimpleEmbedding.sumSq]
    nlinarith [mul_self_nonneg a]

/-- The truncating dot product is symmetric. -/
theorem dotList_comm (v : List ℝ) : ∀ w, SimpleEmbedding.dotList v w =
    SimpleEmbedding.dotList w v := by
  induction v with
  | nil => intro w; cases w <;> simp [SimpleEmbedding.dotList]
  | cons a as ih =>
    intro w
    cases w with
    | nil => simp [SimpleEmbedding.dotList]
    | cons b bs =>
      simp only [SimpleEmbedding.dotList, ih bs]
      ring

/-- Dot product of a list with itself is its sum of squares. -/
theorem dotList_self (v : List ℝ) :
    SimpleEmbedding.dotList v v = SimpleEmbedding.sumSq v := by
  induction v with
  | nil => simp [SimpleEmbedding.dotList, SimpleEmbedding.sumSq]
  | cons a as ih => simp [SimpleEmbedding.dotList, SimpleEmbedding.sumSq, ih]

/-- Dot product of entrywise non-negative lists is non-negative. -/
theorem dotList_nonneg (v : List ℝ) : ∀ w, (∀ x ∈ v, 0 ≤ x) →
    (∀ x ∈ w, 0 ≤ x) → 0 ≤ SimpleEmbedding.dotList v w := by
  induction v with
  | nil => intro w _ _; cases w <;> simp [SimpleEmbedding.dotList]
  | cons a as ih =>
    intro w hv hw
    cases w with
    | nil => simp [SimpleEmbedding.dotList]
    | cons b bs =>
      simp only [SimpleEmbedding.dotList]
      have ha : 0 ≤ a := hv a (List.mem_cons_self _ _)
      have hb : 0 ≤ b := hw b (List.mem_cons_self _ _)
      have hrec := ih bs (fun x hx => hv x (List.mem_cons_of_mem _ hx))
        (fun x hx => hw x (List.mem_cons_of_mem _ hx))
      nlinarith

/-- Bilinear bound used for the Cauchy-Schwarz induction step. -/
theorem dotList_mul_bound (x y : ℝ) (v : List ℝ) :
    ∀ w, 2 * x * y * SimpleEmbedding.dotList v w ≤
      x ^ 2 * SimpleEmbedding.sumSq w + y ^ 2 * SimpleEmbedding.sumSq v := by
  induction v with
  | nil =>
    intro w
    cases w with
    | nil => simp [SimpleEmbedding.dotList, SimpleEmbedding.sumSq]
    | cons b bs =>
      have h0 : SimpleEmbedding.sumSq ([] : List ℝ) = 0 := rfl
      simp only [SimpleEmbedding.dotList, h0]
      nlinarith [mul_nonneg (sq_nonneg x) (sumSq_nonneg (b :: bs))]
  | cons a as ih =>
    intro w
    cases w with
    | nil =>
      have h0 : SimpleEmbedding.sumSq ([] : List ℝ) = 0 := rfl
      simp only [SimpleEmbedding.dotList, h0]
      nlinarith [mul_nonneg (sq_nonneg y) (sumSq_nonneg (a :: as))]
    | cons b bs =>
      simp only [SimpleEmbedding.dotList, SimpleEmbedding.sumSq]
      nlinarith [ih bs, sq_nonneg (x * b - y * a)]

/-- Cauchy-Schwarz for the truncating dot product. -/
theorem dotList_sq_le (v : List ℝ) :
    ∀ w, (SimpleEmbedding.dotList v w) ^ 2 ≤
      SimpleEmbedding.sumSq v * SimpleEmbedding.sumSq w := by
  induction v with
  | nil =>
    intro w
    cases w <;> simp [SimpleEmbedding.dotList, SimpleEmbedding.sumSq,
      mul_nonneg, sumSq_nonneg]
  | cons a as ih =>
    intro w
    cases w with
    | nil =>
      simp only [SimpleEmbedding.dotList, SimpleEmbedding.sumSq]
      nlinarith [mul_nonneg (sumSq_nonneg (a :: as)) (le_refl (0:ℝ)),
        sumSq_nonneg (a :: as)]
    | cons b bs =>
      simp only [SimpleEmbedding.dotList, SimpleEmbedding.sumSq]
      nlinarith [ih bs, dotList_mul_bound a b as bs]

/-- Cosine similarity is symmetric. -/
theorem similarity_symm (v w : List ℝ) :
    SimpleEmbedding.similarity v w = SimpleEmbedding.similarity w v := by
  unfold SimpleEmbedding.similarity
  dsimp only
  by_cases hv : Real.sqrt (SimpleEmbedding.sumSq v) = 0 <;>
    by_cases hw : Real.sqrt (SimpleEmbedding.sumSq w) = 0 <;>
      simp [hv, hw, dotList_comm v w, mul_comm]

/-- Cosine similarity of entrywise non-negative vectors lies in `[0,1]`. -/
theorem similarity_range (v w : List ℝ) (hv : ∀ x ∈ v, 0 ≤ x)
    (hw : ∀ x ∈ w, 0 ≤ x) :
    0 ≤ SimpleEmbedding.similarity v w ∧ SimpleEmbedding.similarity v w ≤ 1 := by
  unfold SimpleEmbedding.similarity
  dsimp only
  split
  · norm_num
  · rename_i h
    push_neg at h
    obtain ⟨h1, h2⟩ := h
    have hs1 : 0 < Real.sqrt (SimpleEmbedding.sumSq v) :=
      lt_of_le_of_ne (Real.sqrt_nonneg _) (Ne.symm h1)
    have hs2 : 0 < Real.sqrt (SimpleEmbedding.sumSq w) :=
      lt_of_le_of_ne (Real.sqrt_nonneg _) (Ne.symm h2)
    have hdot : 0 ≤ SimpleEmbedding.dotList v w := dotList_nonneg v w hv hw
    constructor
    · exact div_nonneg hdot (mul_nonneg hs1.le hs2.le)
    · rw [div_le_one (mul_pos hs1 hs2)]
      calc SimpleEmbedding.dotList v w
          = Real.sqrt ((SimpleEmbedding.dotList v w) ^ 2) :=
            (Real.sqrt_sq hdot).symm
        _ ≤ Real.sqrt (SimpleEmbedding.sumSq v * SimpleEmbedding.sumSq w) :=
            Real.sqrt_le_sqrt (dotList_sq_le v w)
        _ = Real.sqrt (SimpleEmbedding.sumSq v) *
              Real.sqrt (SimpleEmbedding.sumSq w) :=
            Real.sqrt_mul (sumSq_nonneg v) _

/-- Cosine similarity of a non-zero vector with itself is `1`. -/
theorem similarity_self (v : List ℝ) (h : SimpleEmbedding.sumSq v ≠ 0) :
    SimpleEmbedding.similarity v v = 1 := by
  unfold SimpleEmbedding.similarity
  dsimp only
  have hpos : 0 < SimpleEmbedding.sumSq v :=
    lt_of_le_of_ne (sumSq_nonneg v) (Ne.symm h)
  have hsq : Real.sqrt (SimpleEmbedding.sumSq v) ≠ 0 :=
    (Real.sqrt_pos.mpr hpos).ne'
  rw [if_neg (by simp [hsq])]
  rw [dotList_self, Real.mul_self_sqrt (sumSq_nonneg v), div_self h]

/-- Cosine similarity is exactly `0` when either norm is zero. -/
theorem similarity_zero (v w : List ℝ)
    (h : Real.sqrt (SimpleEmbedding.sumSq v) = 0 ∨
      Real.sqrt (SimpleEmbedding.sumSq w) = 0) :
    SimpleEmbedding.similarity v w = 0 := by
  unfold SimpleEmbedding.similarity
  dsimp only
  rw [if_pos h]

/-- Keyword embeddings have non-negative entries. -/
theorem embed_nonneg (t : Text) : ∀ x ∈ SimpleEmbedding.embedR t, 0 ≤ x := by
  have he : SimpleEmbedding.embedR t =
      List.map (fun q : ℚ => (q : ℝ)) (SimpleEmbedding.embed t) := rfl
  have he2 : SimpleEmbedding.embed t =
      List.map (fun k => min ((countOcc k (lowerText t) : ℚ) / 2) 1)
        SimpleEmbedding.keywords := rfl
  rw [he, List.forall_mem_map, he2, List.forall_mem_map]
  intro k _
  have : (0 : ℚ) ≤ min ((countOcc k (lowerText t) : ℚ) / 2) 1 :=
    le_min (by positivity) (by norm_num)
  exact_mod_cast this

/-- Claim C5 as frozen is false: `sim(x, x) = 1.0` does not hold for
every non-empty text. The Jaccard scorer returns `0.0` for the non-empty
whitespace text `" "` (its token set is empty), and the keyword-cosine
scorer returns `0.0` for the non-empty text `"zzz"` (its embedding is
the zero vector, so the zero-norm guard fires). -/
theorem c5_counterexample_identity :
    ((" ".toList : Text) ≠ [] ∧
      SemanticChunker.calculate_similarity " ".toList " ".toList ≠ 1) ∧
    (("zzz".toList : Text) ≠ [] ∧
      SimpleEmbedding.similarity (SimpleEmbedding.embedR "zzz".toList)
        (SimpleEmbedding.embedR "zzz".toList) ≠ 1) := by
  refine ⟨⟨by decide, ?_⟩, by decide, ?_⟩
  · have h : SemanticChunker.calculate_similarity " ".toList " ".toList = 0 := by
      decide!
    rw [h]; norm_num
  · have hz : SimpleEmbedding.embed "zzz".toList = [0, 0, 0, 0, 0, 0, 0, 0, 0] := by
      decide!
    have hR : SimpleEmbedding.embedR "zzz".toList =
        [(0 : ℝ), 0, 0, 0, 0, 0, 0, 0, 0] := by
      have he : SimpleEmbedding.embedR "zzz".toList =
          List.map (fun q : ℚ => (q : ℝ)) (SimpleEmbedding.embed "zzz".toList) := rfl
      rw [he, hz]; norm_num
    have hs : SimpleEmbedding.sumSq (SimpleEmbedding.embedR "zzz".toList) = 0 := by
      rw [hR]; norm_num [SimpleEmbedding.sumSq]
    have h0 : SimpleEmbedding.similarity (SimpleEmbedding.embedR "zzz".toList)
        (SimpleEmbedding.embedR "zzz".toList) = 0 :=
      similarity_zero _ _ (Or.inl (by rw [hs]; exact Real.sqrt_zero))
    rw [h0]; norm_num

/-- Claim C5 amended: both reference scorers are symmetric and lie in
`[0, 1]`; on empty token sets or zero-norm vectors they return exactly
`0.0` (never an undefined value); and `sim(x, x) = 1.0` holds for every
`x` whose lowercase token set is non-empty (Jaccard) respectively whose
keyword embedding has non-zero norm (cosine) — not for every non-empty
text, as the counterexample shows. -/
theorem c5_similarity_properties_amended :
    (∀ a b : Text, SemanticChunker.calculate_similarity a b =
      SemanticChunker.calculate_similarity b a) ∧
    (∀ a b : Text, 0 ≤ SemanticChunker.calculate_similarity a b ∧
      SemanticChunker.calculate_similarity a b ≤ 1) ∧
    (∀ x : Text, pyWords (lowerText x) ≠ [] →
      SemanticChunker.calculate_similarity x x = 1) ∧
    (∀ a b : Text, pyWords (lowerText a) = [] ∨ pyWords (lowerText b) = [] →
      SemanticChunker.calculate_similarity a b = 0) ∧
    (∀ v w : List ℝ, SimpleEmbedding.similarity v w =
      SimpleEmbedding.similarity w v) ∧
    (∀ a b : Text, 0 ≤ SimpleEmbedding.similarity (SimpleEmbedding.embedR a)
        (SimpleEmbedding.embedR b) ∧
      SimpleEmbedding.similarity (SimpleEmbedding.embedR a)
        (SimpleEmbedding.embedR b) ≤ 1) ∧
    (∀ x : Text, SimpleEmbedding.sumSq (SimpleEmbedding.embedR x) ≠ 0 →
      SimpleEmbedding.similarity (SimpleEmbedding.embedR x)
        (SimpleEmbedding.embedR x) = 1) ∧
    (∀ v w : List ℝ, Real.sqrt (SimpleEmbedding.sumSq v) = 0 ∨
        Real.sqrt (SimpleEmbedding.sumSq w) = 0 →
      SimpleEmbedding.similarity v w = 0) :=
  ⟨calculate_similarity_symm,
   calculate_similarity_range,
   calculate_similarity_self,
   calculate_similarity_empty,
   similarity_symm,
   fun a b => similarity_range _ _ (embed_nonneg a) (embed_nonneg b),
   fun x h => similarity_self _ h,
   similarity_zero⟩

/-- Witness for the amended C5 at concrete texts and vectors. -/
theorem c5_similarity_witness :
    SemanticChunker.calculate_similarity "a a".toList "a a".toList = 1 ∧
    SemanticChunker.calculate_similarity " ".toList "x".toList = 0 ∧
    (0 ≤ SimpleEmbedding.similarity (SimpleEmbedding.embedR "api".toList)
        (SimpleEmbedding.embedR "sdk".toList) ∧
      SimpleEmbedding.similarity (SimpleEmbedding.embedR "api".toList)
        (SimpleEmbedding.embedR "sdk".toList) ≤ 1) ∧
    SimpleEmbedding.similarity (SimpleEmbedding.embedR "api".toList)
      (SimpleEmbedding.embedR "api".toList) = 1 ∧
    SimpleEmbedding.similarity [(0 : ℝ)] [(1 : ℝ)] = 0 := by
  refine ⟨c5_similarity_properties_amended.2.2.1 "a a".toList (by decide),
    c5_similarity_properties_amended.2.2.2.1 " ".toList "x".toList
      (Or.inl (by decide)),
    c5_similarity_properties_amended.2.2.2.2.2.1 "api".toList "sdk".toList,
    c5_similarity_properties_amended.2.2.2.2.2.2.1 "api".toList ?_,
    c5_similarity_properties_amended.2.2.2.2.2.2.2 [(0 : ℝ)] [(1 : ℝ)]
      (Or.inl ?_)⟩
  · have h1 : SimpleEmbedding.embed "api".toList =
        [1/2, 0, 0, 0, 0, 0, 0, 0, 0] := by decide!
    have hR : SimpleEmbedding.embedR "api".toList =
        [(1/2 : ℝ), 0, 0, 0, 0, 0, 0, 0, 0] := by
      have he : SimpleEmbedding.embedR "api".toList =
          List.map (fun q : ℚ => (q : ℝ)) (SimpleEmbedding.embed "api".toList) := rfl
      rw [he, h1]; norm_num
    rw [hR]
    norm_num [SimpleEmbedding.sumSq]
  · have hs : SimpleEmbedding.sumSq [(0 : ℝ)] = 0 := by
      norm_num [SimpleEmbedding.sumSq]
    rw [hs]; exact Real.sqrt_zero
